import Mathlib

/-!
Verification of the Merkle accumulator program (solana-merkle-tree).

The development embeds the program's core shallowly:
* bytes are natural numbers, byte strings are lists of naturals;
* the SHA-256 digest primitive (an external library) is treated as an
  uninterpreted digest-function parameter, since no property below depends
  on its internals — only on how the program arranges its inputs;
* fallible code paths (the panicking index, the unreachable chunk branch,
  borsh deserialization) are embedded with Option/Except.
-/

/-- A byte string: a list of byte values. The program works with fixed
32-byte digests, but none of the embedded operations needs the length
constraint to be stated. -/
abbrev Bytes := List Nat

/-- Lexicographic byte-string comparison, as Rust's derived `<=` on
`[u8; 32]` (element-wise, first difference decides; used by the source
only on equal-length arrays). -/
def bytesLe : Bytes → Bytes → Bool
  | [], _ => true
  | _ :: _, [] => false
  | a :: as, b :: bs =>
    if a < b then true
    else if b < a then false
    else bytesLe as bs

/-- Embedding of `hash_sorted_pair` (src/program/src/utils.rs): put the
byte-wise smaller operand left, then digest the concatenation.  `sha`
stands for the SHA-256 digest of the accumulated input. -/
def hash_sorted_pair (sha : Bytes → Bytes) (a b : Bytes) : Bytes :=
  if bytesLe a b then sha (a ++ b) else sha (b ++ a)

theorem bytesLe_total : ∀ a b : Bytes, bytesLe a b = true ∨ bytesLe b a = true
  | [], _ => Or.inl rfl
  | _ :: _, [] => Or.inr rfl
  | a :: as, b :: bs => by
    rcases Nat.lt_trichotomy a b with h | h | h
    · left; simp [bytesLe, h]
    · subst h
      rcases bytesLe_total as bs with ih | ih
      · left; simp [bytesLe, ih]
      · right; simp [bytesLe, ih]
    · right; simp [bytesLe, h]

theorem bytesLe_antisymm : ∀ a b : Bytes,
    bytesLe a b = true → bytesLe b a = true → a = b
  | [], [], _, _ => rfl
  | [], _ :: _, _, hba => by simp [bytesLe] at hba
  | _ :: _, [], hab, _ => by simp [bytesLe] at hab
  | a :: as, b :: bs, hab, hba => by
    rcases Nat.lt_trichotomy a b with h | h | h
    · simp [bytesLe, h, Nat.not_lt.mpr (Nat.le_of_lt h)] at hba
    · subst h
      simp only [bytesLe, lt_irrefl, if_false] at hab hba
      rw [bytesLe_antisymm as bs hab hba]
    · simp [bytesLe, h, Nat.not_lt.mpr (Nat.le_of_lt h)] at hab

/-- C2: `hash_sorted_pair` is insensitive to operand order: it
canonicalizes by taking the byte-wise smaller operand as the left input to
the digest, so swapping the arguments produces the same digest input. -/
theorem hash_sorted_pair_comm (sha : Bytes → Bytes) (a b : Bytes) :
    hash_sorted_pair sha a b = hash_sorted_pair sha b a := by
  unfold hash_sorted_pair
  rcases hab : bytesLe a b with _ | _ <;> rcases hba : bytesLe b a with _ | _
  · rcases bytesLe_total a b with h | h
    · rw [hab] at h; exact absurd h (by simp)
    · rw [hba] at h; exact absurd h (by simp)
  · simp
  · simp
  · rw [bytesLe_antisymm a b hab hba]

/-- `slice::chunks(2)`: partition a list into consecutive chunks of two,
in order, with a final chunk of one when the length is odd. -/
def chunks2 : List Bytes → List (List Bytes)
  | [] => []
  | [a] => [[a]]
  | a :: b :: rest => [a, b] :: chunks2 rest

/-- The body of the `for pair in current_layer.chunks(2)` match in
`update_root_hash` (src/program/src/state.rs): a full pair is combined as
`hash_sorted_pair a b`, a trailing single as `hash_sorted_pair a a`, and
any other chunk shape is the `unreachable!()` branch, embedded as `none`. -/
def combineChunk (sha : Bytes → Bytes) : List Bytes → Option Bytes
  | [a, b] => some (hash_sorted_pair sha a b)
  | [a] => some (hash_sorted_pair sha a a)
  | _ => none

/-- The `for` loop over the chunks, pushing each combined value onto the
next layer; a `none` from any chunk (the unreachable branch) aborts. -/
def pushCombined (sha : Bytes → Bytes) : List (List Bytes) → Option (List Bytes)
  | [] => some []
  | c :: cs => do
    let combined ← combineChunk sha c
    let next ← pushCombined sha cs
    pure (combined :: next)

/-- One reduction round of the code's loop: combine every chunk of the
current layer, propagating the unreachable branch as `none`. -/
def codeRound (sha : Bytes → Bytes) (layer : List Bytes) : Option (List Bytes) :=
  pushCombined sha (chunks2 layer)

/-- Modelled from the spec, section 4.2 step 2: one reduction round —
replace each full consecutive pair (a, b) by combine(a, b) and a trailing
single element a by combine(a, a), preserving order. -/
def specRound (sha : Bytes → Bytes) : List Bytes → List Bytes
  | [] => []
  | [a] => [hash_sorted_pair sha a a]
  | a :: b :: rest => hash_sorted_pair sha a b :: specRound sha rest

theorem specRound_length (sha : Bytes → Bytes) :
    ∀ l : List Bytes, (specRound sha l).length = (l.length + 1) / 2
  | [] => rfl
  | [_] => by simp [specRound]
  | _ :: _ :: rest => by
    simp only [specRound, List.length_cons, specRound_length sha rest]
    omega

/-- Every chunk produced by `chunks2` has one or two elements, so the
`unreachable!()` branch of the chunk match never fires: the code's round
always succeeds and computes exactly the spec's round. -/
theorem codeRound_eq_specRound (sha : Bytes → Bytes) :
    ∀ l : List Bytes, codeRound sha l = some (specRound sha l)
  | [] => rfl
  | [_] => rfl
  | a :: b :: rest => by
    have ih := codeRound_eq_specRound sha rest
    simp only [codeRound, chunks2, pushCombined] at ih ⊢
    simp [ih, combineChunk, specRound]

/-- The `while current_layer.len() > 1` loop of `update_root_hash`:
repeatedly reduce the layer; `none` stands for the (unreachable) panic. -/
def updateLoop (sha : Bytes → Bytes) (layer : List Bytes) : Option (List Bytes) :=
  if _h : layer.length > 1 then
    match hm : codeRound sha layer with
    | some next => updateLoop sha next
    | none => none
  else
    some layer
termination_by layer.length
decreasing_by
  rw [codeRound_eq_specRound sha layer] at hm
  cases hm
  rw [specRound_length]
  omega

/-- Modelled from the spec, section 4.2: the full bottom-up layer
reduction loop. -/
def specReduce (sha : Bytes → Bytes) (layer : List Bytes) : List Bytes :=
  if layer.length > 1 then specReduce sha (specRound sha layer) else layer
termination_by layer.length
decreasing_by
  rw [specRound_length]
  omega

/-- Modelled from the spec, section 4.2: `computeRoot` of a non-empty leaf
sequence is the single element left when the reduction reaches a layer of
length one (the default for the empty sequence is never used under the
spec's non-emptiness precondition). -/
def computeRoot (sha : Bytes → Bytes) (leaves : List Bytes) : Bytes :=
  (specReduce sha leaves).headD []

/-- Embedding of `MerkleStateAccount` (src/program/src/state.rs). -/
structure MerkleStateAccount where
  root_hash : Bytes
  leaf_hashes : List Bytes
  deriving DecidableEq, Repr

/-- `MerkleStateAccount::new`: seed the accumulator with one leaf, caching
it as the root. -/
def MerkleStateAccount.new (init_hash : Bytes) : MerkleStateAccount :=
  { root_hash := init_hash, leaf_hashes := [init_hash] }

/-- `MerkleStateAccount::update_root_hash`: run the reduction loop over a
copy of the leaf list and store element 0 of the final layer as the root;
`none` embeds the two panic sources (the unreachable chunk branch and an
out-of-bounds index). -/
def MerkleStateAccount.update_root_hash (sha : Bytes → Bytes)
    (s : MerkleStateAccount) : Option MerkleStateAccount := do
  let final ← updateLoop sha s.leaf_hashes
  let r ← final[0]?
  pure { s with root_hash := r }

/-- `MerkleStateAccount::add_leaf`: push the leaf, then recompute the
root. -/
def MerkleStateAccount.add_leaf (sha : Bytes → Bytes)
    (s : MerkleStateAccount) (leaf_hash : Bytes) : Option MerkleStateAccount :=
  MerkleStateAccount.update_root_hash sha
    { s with leaf_hashes := s.leaf_hashes ++ [leaf_hash] }

/-- `MerkleStateAccount::get_root_hash`. -/
def MerkleStateAccount.get_root_hash (s : MerkleStateAccount) : Bytes :=
  s.root_hash

/-- `MerkleStateAccount::get_leaf_hashes`. -/
def MerkleStateAccount.get_leaf_hashes (s : MerkleStateAccount) : List Bytes :=
  s.leaf_hashes

/-- Repeated insertion: fold `add_leaf` over a list of leaves, propagating
a panic as `none`. -/
def insertAll (sha : Bytes → Bytes) (s : MerkleStateAccount) :
    List Bytes → Option MerkleStateAccount
  | [] => some s
  | l :: ls => do
    let s' ← s.add_leaf sha l
    insertAll sha s' ls

/-- A concrete digest stand-in, used only to instantiate witnesses of
universally quantified statements at a computable point. -/
def demoSha (l : Bytes) : Bytes := l.length % 256 :: List.replicate 31 0

theorem updateLoop_spec_fuel (sha : Bytes → Bytes) :
    ∀ (n : Nat) (l : List Bytes), l.length ≤ n →
      updateLoop sha l = some (specReduce sha l)
  | 0, l, hlen => by
    have hl : l = [] := by
      cases l with
      | nil => rfl
      | cons a as => simp at hlen
    subst hl
    rw [updateLoop, specReduce]
    simp
  | n + 1, l, hlen => by
    by_cases h : l.length > 1
    · rw [updateLoop, specReduce, dif_pos h, if_pos h]
      split
      · rename_i next heq
        rw [codeRound_eq_specRound] at heq
        cases heq
        exact updateLoop_spec_fuel sha n (specRound sha l)
          (by rw [specRound_length]; omega)
      · rename_i heq
        rw [codeRound_eq_specRound] at heq
        cases heq
    · rw [updateLoop, specReduce, dif_neg h, if_neg h]

theorem updateLoop_eq_specReduce (sha : Bytes → Bytes) (l : List Bytes) :
    updateLoop sha l = some (specReduce sha l) :=
  updateLoop_spec_fuel sha l.length l le_rfl

theorem specReduce_singleton (sha : Bytes → Bytes) :
    ∀ (n : Nat) (l : List Bytes), l.length ≤ n → l ≠ [] →
      ∃ r, specReduce sha l = [r]
  | 0, l, hlen, hne => by
    cases l with
    | nil => exact absurd rfl hne
    | cons a as => simp at hlen
  | n + 1, l, hlen, hne => by
    by_cases h : l.length > 1
    · rw [specReduce, if_pos h]
      have hlen2 : (specRound sha l).length = (l.length + 1) / 2 :=
        specRound_length sha l
      have hne2 : specRound sha l ≠ [] := by
        intro he
        rw [he] at hlen2
        simp at hlen2
        omega
      exact specReduce_singleton sha n (specRound sha l) (by omega) hne2
    · rw [specReduce, if_neg h]
      match l, hne with
      | [a], _ => exact ⟨a, rfl⟩
      | a :: b :: rest, _ => simp at h

theorem specReduce_singleton_of_ne_nil (sha : Bytes → Bytes)
    (l : List Bytes) (hne : l ≠ []) : ∃ r, specReduce sha l = [r] :=
  specReduce_singleton sha l.length l le_rfl hne

/-- Helper: on any state with a non-empty leaf list, `update_root_hash`
succeeds and stores exactly the spec's `computeRoot` of the leaf list,
leaving the leaf list itself unchanged. -/
theorem update_root_hash_eq (sha : Bytes → Bytes) (s : MerkleStateAccount)
    (hne : s.leaf_hashes ≠ []) :
    s.update_root_hash sha =
      some { s with root_hash := computeRoot sha s.leaf_hashes } := by
  obtain ⟨r, hr⟩ := specReduce_singleton_of_ne_nil sha s.leaf_hashes hne
  simp [MerkleStateAccount.update_root_hash, updateLoop_eq_specReduce, hr,
    computeRoot]

/-- Helper: `add_leaf` always succeeds (the pushed list is non-empty) and
produces the appended leaf list together with its recomputed root. -/
theorem add_leaf_eq (sha : Bytes → Bytes) (s : MerkleStateAccount)
    (leaf : Bytes) :
    s.add_leaf sha leaf =
      some { root_hash := computeRoot sha (s.leaf_hashes ++ [leaf]),
             leaf_hashes := s.leaf_hashes ++ [leaf] } := by
  rw [MerkleStateAccount.add_leaf,
    update_root_hash_eq sha _ (by simp)]

theorem computeRoot_single (sha : Bytes → Bytes) (h : Bytes) :
    computeRoot sha [h] = h := by
  rw [computeRoot, specReduce]
  simp

/-- Embedding of the `ProgramError` variants the program produces:
`InvalidInstructionData` from `unpack`, `InvalidAccountData` from the
account checks, `AccountNotRentExempt` from the rent computation, and the
borsh deserialization failure propagated by `?`. -/
inductive ProgramError where
  | InvalidInstructionData
  | InvalidAccountData
  | AccountNotRentExempt
  | BorshIoError
  deriving DecidableEq

/-- Embedding of `MerkleTreeInstruction` (src/program/src/instruction.rs). -/
inductive MerkleTreeInstruction where
  | InsertLeaf (hash : Bytes)
  deriving DecidableEq

/-- `MerkleTreeInstruction::pack`: the tag byte 0 followed by the hash
bytes. -/
def MerkleTreeInstruction.pack : MerkleTreeInstruction → Bytes
  | .InsertLeaf hash => 0 :: hash

/-- `MerkleTreeInstruction::unpack`: `split_first` fails on empty input;
tag 0 requires the remaining bytes to convert into `[u8; 32]`, i.e. have
length exactly 32; any other tag is rejected. -/
def MerkleTreeInstruction.unpack : Bytes → Except ProgramError MerkleTreeInstruction
  | [] => .error .InvalidInstructionData
  | instruction_id :: instruction_data =>
    match instruction_id with
    | 0 =>
      if instruction_data.length = 32 then
        .ok (.InsertLeaf instruction_data)
      else
        .error .InvalidInstructionData
    | _ + 1 => .error .InvalidInstructionData

/-- Read exactly `n` bytes from the front of the input, failing when
fewer remain. -/
def takeExact (n : Nat) (l : Bytes) : Option (Bytes × Bytes) :=
  if n ≤ l.length then some (l.take n, l.drop n) else none

/-- The value of four little-endian bytes as a u32. -/
def u32ofBytes (b : Bytes) : Nat :=
  match b with
  | [b0, b1, b2, b3] => b0 + 256 * (b1 + 256 * (b2 + 256 * b3))
  | _ => 0

/-- Little-endian u32 encoding. -/
def u32toBytes (n : Nat) : Bytes :=
  [n % 256, n / 256 % 256, n / 65536 % 256, n / 16777216 % 256]

/-- Borsh element loop for `Vec<[u8; 32]>`: read `n` 32-byte leaf
entries, failing on a truncated entry. -/
def readLeaves : Nat → Bytes → Option (List Bytes × Bytes)
  | 0, rest => some ([], rest)
  | n + 1, rest => do
    let (leaf, rest1) ← takeExact 32 rest
    let (ls, rest2) ← readLeaves n rest1
    pure (leaf :: ls, rest2)

/-- Borsh `MerkleStateAccount::try_from_slice`: a 32-byte root, a u32
little-endian leaf count, that many 32-byte leaf entries, and nothing
left over (borsh rejects trailing input); `none` is the deserialization
error. -/
def try_from_slice (data : Bytes) : Option MerkleStateAccount := do
  let (root, r1) ← takeExact 32 data
  let (lenBytes, r2) ← takeExact 4 r1
  let (leaves, r3) ← readLeaves (u32ofBytes lenBytes) r2
  if r3 = [] then pure ⟨root, leaves⟩ else none

/-- Borsh serialization of `MerkleStateAccount`: root, little-endian leaf
count, then the leaf entries in order. -/
def serializeState (s : MerkleStateAccount) : Bytes :=
  s.root_hash ++ u32toBytes s.leaf_hashes.length ++ s.leaf_hashes.flatten

/-- Embedding of the account-data path of `process_insert_leaf`
(src/program/src/processor.rs): the host-environment checks (system
program id, PDA address, rent funding) sit outside the data model; the
function maps the persisted bytes before the call to the persisted bytes
after it.  Empty data takes the creation branch; otherwise the state is
deserialized, the leaf appended and the state reserialized, and a
deserialization failure from `try_from_slice` is propagated by `?` before
any mutation.  The (unreachable) panic inside `add_leaf` is surfaced as
`InvalidAccountData` to keep the function total. -/
def process_insert_leaf_data (sha : Bytes → Bytes) (data : Bytes)
    (hash : Bytes) : Except ProgramError Bytes :=
  if data = [] then
    .ok (serializeState (MerkleStateAccount.new hash))
  else
    match try_from_slice data with
    | none => .error .BorshIoError
    | some s =>
      match s.add_leaf sha hash with
      | some s2 => .ok (serializeState s2)
      | none => .error .InvalidAccountData

/-- C1: for every state with a non-empty leaf list, `update_root_hash`
succeeds and sets `root_hash` to the bottom-up layer reduction of the
leaf sequence (`computeRoot`), leaving the leaf list unchanged. -/
theorem update_root_hash_computes_layered_root (sha : Bytes → Bytes)
    (s : MerkleStateAccount) (hne : s.leaf_hashes ≠ []) :
    s.update_root_hash sha =
      some { s with root_hash := computeRoot sha s.leaf_hashes } :=
  update_root_hash_eq sha s hne

theorem update_root_hash_computes_layered_root_witness :
    ([[1], [2], [3]] : List Bytes) ≠ [] ∧
    (MerkleStateAccount.mk [9] [[1], [2], [3]]).update_root_hash demoSha =
      some (MerkleStateAccount.mk (computeRoot demoSha [[1], [2], [3]])
        [[1], [2], [3]]) :=
  ⟨by decide,
    update_root_hash_computes_layered_root demoSha
      (MerkleStateAccount.mk [9] [[1], [2], [3]]) (by decide)⟩

/-- C3: the invariant root = computeRoot(leaves) holds after every
observable transition: `new h` caches `h`, which equals
`computeRoot [h]` (a single leaf is its own root), and every `add_leaf`
succeeds and reestablishes the invariant on the new state. -/
theorem accumulator_root_invariant (sha : Bytes → Bytes) (h : Bytes)
    (s : MerkleStateAccount) (leaf : Bytes) :
    (MerkleStateAccount.new h).root_hash =
        computeRoot sha (MerkleStateAccount.new h).leaf_hashes ∧
    computeRoot sha [h] = h ∧
    ∃ s', s.add_leaf sha leaf = some s' ∧
      s'.root_hash = computeRoot sha s'.leaf_hashes := by
  refine ⟨?_, computeRoot_single sha h, ⟨_, add_leaf_eq sha s leaf, rfl⟩⟩
  simp [MerkleStateAccount.new, computeRoot_single]

theorem insertAll_spec (sha : Bytes → Bytes) :
    ∀ (rest : List Bytes) (s : MerkleStateAccount),
      s.root_hash = computeRoot sha s.leaf_hashes →
      ∃ s', insertAll sha s rest = some s' ∧
        s'.leaf_hashes = s.leaf_hashes ++ rest ∧
        s'.root_hash = computeRoot sha s'.leaf_hashes
  | [], s, hinv => ⟨s, rfl, by simp, hinv⟩
  | l :: ls, s, hinv => by
    obtain ⟨s', hs', hleaf, hroot⟩ := insertAll_spec sha ls
      (MerkleStateAccount.mk (computeRoot sha (s.leaf_hashes ++ [l]))
        (s.leaf_hashes ++ [l])) rfl
    refine ⟨s', ?_, ?_, hroot⟩
    · simp [insertAll, add_leaf_eq sha s l, hs']
    · simp only at hleaf
      rw [hleaf, List.append_assoc]
      rfl

/-- C4: inserting L1, ..., Ln one at a time — creation from L1 followed
by add_leaf for each remaining leaf — produces, after the last insertion,
exactly the root computeRoot([L1, ..., Ln]) of the full sequence. -/
theorem incremental_batch_equivalence (sha : Bytes → Bytes) (L1 : Bytes)
    (rest : List Bytes) :
    ∃ s', insertAll sha (MerkleStateAccount.new L1) rest = some s' ∧
      s'.leaf_hashes = L1 :: rest ∧
      s'.root_hash = computeRoot sha (L1 :: rest) := by
  obtain ⟨s', hs', hleaf, hroot⟩ := insertAll_spec sha rest
    (MerkleStateAccount.new L1) (by simp [MerkleStateAccount.new, computeRoot_single])
  have hl : s'.leaf_hashes = L1 :: rest := by
    rw [hleaf]; rfl
  exact ⟨s', hs', hl, by rw [hroot, hl]⟩

theorem specRound_getLast (sha : Bytes → Bytes) :
    ∀ (l : List Bytes) (a : Bytes), l.length % 2 = 1 →
      l.getLast? = some a →
      (specRound sha l).getLast? = some (hash_sorted_pair sha a a)
  | [], a, hodd, _ => by simp at hodd
  | [x], a, _, hlast => by
    simp at hlast
    subst hlast
    simp [specRound]
  | x :: y :: rest, a, hodd, hlast => by
    have hodd2 : rest.length % 2 = 1 := by
      simp only [List.length_cons] at hodd
      omega
    have hne : rest ≠ [] := by
      intro he
      rw [he] at hodd2
      simp at hodd2
    have hlast2 : rest.getLast? = some a := by
      rw [List.getLast?_cons_cons] at hlast
      cases rest with
      | nil => exact absurd rfl hne
      | cons r rs =>
        rw [List.getLast?_cons_cons] at hlast
        exact hlast
    have ih := specRound_getLast sha rest a hodd2 hlast2
    have hne2 : specRound sha rest ≠ [] := by
      intro he
      have hlen := specRound_length sha rest
      rw [he] at hlen
      simp at hlen
      omega
    cases hsr : specRound sha rest with
    | nil => exact absurd hsr hne2
    | cons p ps =>
      have hstep : specRound sha (x :: y :: rest) =
          hash_sorted_pair sha x y :: specRound sha rest := rfl
      rw [hstep, hsr, List.getLast?_cons_cons]
      rw [hsr] at ih
      exact ih

/-- C5: in any reduction round over an odd-length layer, the round
succeeds and its last element is the trailing element combined with
itself, not the trailing element promoted unchanged. -/
theorem odd_layer_self_pairing (sha : Bytes → Bytes) (layer : List Bytes)
    (a : Bytes) (hodd : layer.length % 2 = 1)
    (hlast : layer.getLast? = some a) :
    ∃ next, codeRound sha layer = some next ∧
      next.getLast? = some (hash_sorted_pair sha a a) :=
  ⟨specRound sha layer, codeRound_eq_specRound sha layer,
    specRound_getLast sha layer a hodd hlast⟩

theorem odd_layer_self_pairing_witness :
    ([[1], [2], [3]] : List Bytes).length % 2 = 1 ∧
    ([[1], [2], [3]] : List Bytes).getLast? = some [3] ∧
    ∃ next, codeRound demoSha [[1], [2], [3]] = some next ∧
      next.getLast? = some (hash_sorted_pair demoSha [3] [3]) :=
  ⟨by decide, by decide,
    odd_layer_self_pairing demoSha [[1], [2], [3]] [3] (by decide) (by decide)⟩

/-- C6: `add_leaf` always succeeds, appends the leaf at the end, grows
the leaf list by exactly one, and preserves every pre-existing entry at
its index (the old list is the prefix of the new one). -/
theorem add_leaf_appends_exactly (sha : Bytes → Bytes)
    (s : MerkleStateAccount) (leaf : Bytes) :
    ∃ s', s.add_leaf sha leaf = some s' ∧
      s'.leaf_hashes = s.leaf_hashes ++ [leaf] ∧
      s'.leaf_hashes.length = s.leaf_hashes.length + 1 ∧
      s'.leaf_hashes.take s.leaf_hashes.length = s.leaf_hashes ∧
      s'.leaf_hashes.getLast? = some leaf := by
  refine ⟨_, add_leaf_eq sha s leaf, rfl, by simp, ?_, ?_⟩
  · exact List.take_left _ _
  · exact List.getLast?_concat _

/-- C7: on any well-formed state (non-empty leaf list) every core
operation is total: `update_root_hash` and `add_leaf` succeed, the chunk
match never reaches the unreachable branch (one round always computes the
full next layer), the final layer is non-empty so the index 0 access is
in bounds, and `get_root_hash` returns the stored root. -/
theorem core_operations_total (sha : Bytes → Bytes)
    (s : MerkleStateAccount) (hne : s.leaf_hashes ≠ []) :
    (∃ s1, s.update_root_hash sha = some s1) ∧
    (∀ leaf, ∃ s2, s.add_leaf sha leaf = some s2) ∧
    codeRound sha s.leaf_hashes = some (specRound sha s.leaf_hashes) ∧
    (∃ final, updateLoop sha s.leaf_hashes = some final ∧ 0 < final.length) ∧
    s.get_root_hash = s.root_hash := by
  obtain ⟨r, hr⟩ := specReduce_singleton_of_ne_nil sha s.leaf_hashes hne
  exact ⟨⟨_, update_root_hash_eq sha s hne⟩,
    fun leaf => ⟨_, add_leaf_eq sha s leaf⟩,
    codeRound_eq_specRound sha s.leaf_hashes,
    ⟨[r], by rw [updateLoop_eq_specReduce, hr], by simp⟩,
    rfl⟩

theorem core_operations_total_witness :
    ([[4], [5]] : List Bytes) ≠ [] ∧
    ((∃ s1, (MerkleStateAccount.mk [7] [[4], [5]]).update_root_hash demoSha =
        some s1) ∧
      (∀ leaf, ∃ s2, (MerkleStateAccount.mk [7] [[4], [5]]).add_leaf demoSha
        leaf = some s2) ∧
      codeRound demoSha [[4], [5]] = some (specRound demoSha [[4], [5]]) ∧
      (∃ final, updateLoop demoSha [[4], [5]] = some final ∧
        0 < final.length) ∧
      (MerkleStateAccount.mk [7] [[4], [5]]).get_root_hash = [7]) :=
  ⟨by decide,
    core_operations_total demoSha (MerkleStateAccount.mk [7] [[4], [5]])
      (by decide)⟩

/-- C8: `unpack` returns `Ok(InsertLeaf h)` exactly on inputs consisting
of the tag byte 0 followed by exactly 32 bytes (which become `h`); every
other input — empty, unknown tag, or wrong payload length — yields
`InvalidInstructionData`. -/
theorem unpack_insert_leaf_characterization (input : Bytes) (h : Bytes) :
    (MerkleTreeInstruction.unpack input =
        Except.ok (MerkleTreeInstruction.InsertLeaf h) ↔
      input = 0 :: h ∧ h.length = 32) ∧
    (input.head? ≠ some 0 ∨ input.length ≠ 33 →
      MerkleTreeInstruction.unpack input =
        Except.error ProgramError.InvalidInstructionData) := by
  cases input with
  | nil =>
    exact ⟨by simp [MerkleTreeInstruction.unpack], fun _ => rfl⟩
  | cons x rest =>
    cases x with
    | zero =>
      constructor
      · by_cases hl : rest.length = 32
        · simp only [MerkleTreeInstruction.unpack, hl, if_true]
          constructor
          · intro hok
            simp at hok
            subst hok
            exact ⟨rfl, hl⟩
          · rintro ⟨heq, _⟩
            simp at heq
            subst heq
            rfl
        · simp only [MerkleTreeInstruction.unpack, hl, if_false]
          constructor
          · intro hok
            cases hok
          · rintro ⟨heq, hhl⟩
            simp at heq
            subst heq
            exact absurd hhl hl
      · intro hcond
        have hl : rest.length ≠ 32 := by
          rcases hcond with hhead | hlen
          · simp at hhead
          · simp at hlen
            omega
        simp [MerkleTreeInstruction.unpack, hl]
    | succ n =>
      constructor
      · constructor
        · intro hok
          cases hok
        · rintro ⟨heq, _⟩
          simp at heq
      · intro _
        rfl

theorem unpack_insert_leaf_characterization_witness :
    (([5, 6] : Bytes).head? ≠ some 0 ∨ ([5, 6] : Bytes).length ≠ 33) ∧
    MerkleTreeInstruction.unpack [5, 6] =
      Except.error ProgramError.InvalidInstructionData :=
  ⟨Or.inl (by decide),
    (unpack_insert_leaf_characterization [5, 6] []).2 (Or.inl (by decide))⟩

/-- C9: when the persisted bytes of an existing account do not parse into
a well-formed (root, leaves) pair, the load path aborts with the
deserialization error before any mutation: no ok result, hence no new
persisted state and no appended leaf. -/
theorem malformed_state_aborts (sha : Bytes → Bytes) (data hash : Bytes)
    (hne : data ≠ []) (hbad : try_from_slice data = none) :
    process_insert_leaf_data sha data hash =
      Except.error ProgramError.BorshIoError ∧
    ∀ out, process_insert_leaf_data sha data hash ≠ Except.ok out := by
  have herr : process_insert_leaf_data sha data hash =
      Except.error ProgramError.BorshIoError := by
    simp [process_insert_leaf_data, hne, hbad]
  refine ⟨herr, fun out hok => ?_⟩
  rw [herr] at hok
  cases hok

theorem malformed_state_aborts_witness :
    (List.replicate 32 0 ++ [1, 0, 0, 0] ++ [7] : Bytes) ≠ [] ∧
    try_from_slice (List.replicate 32 0 ++ [1, 0, 0, 0] ++ [7]) = none ∧
    (process_insert_leaf_data demoSha
        (List.replicate 32 0 ++ [1, 0, 0, 0] ++ [7]) (List.replicate 32 1) =
        Except.error ProgramError.BorshIoError ∧
      ∀ out, process_insert_leaf_data demoSha
        (List.replicate 32 0 ++ [1, 0, 0, 0] ++ [7]) (List.replicate 32 1) ≠
          Except.ok out) :=
  ⟨by decide, by decide,
    malformed_state_aborts demoSha _ _ (by decide) (by decide)⟩

/-- C10: packing an `InsertLeaf` instruction with a 32-byte hash and
unpacking the result round-trips to the same instruction. -/
theorem pack_unpack_roundtrip (h : Bytes) (hlen : h.length = 32) :
    MerkleTreeInstruction.unpack
        (MerkleTreeInstruction.pack (MerkleTreeInstruction.InsertLeaf h)) =
      Except.ok (MerkleTreeInstruction.InsertLeaf h) := by
  simp [MerkleTreeInstruction.pack, MerkleTreeInstruction.unpack, hlen]

theorem pack_unpack_roundtrip_witness :
    (List.replicate 32 5 : Bytes).length = 32 ∧
    MerkleTreeInstruction.unpack
        (MerkleTreeInstruction.pack
          (MerkleTreeInstruction.InsertLeaf (List.replicate 32 5))) =
      Except.ok (MerkleTreeInstruction.InsertLeaf (List.replicate 32 5)) :=
  ⟨by decide, pack_unpack_roundtrip _ (by decide)⟩
